import Mathlib

/-!
Verification of the Ollama LLM-provider core (`src-tauri/src/llm/ollama.rs`).

The Rust code is shallowly embedded: `Vec<String>` becomes `List`, Rust
strings become `List Char`, fallible or panicking code returns `Option` /
`Except`, and the impure collaborators (file reads, the network round trip,
the wall clock) are passed in explicitly as function arguments so that the
pipeline itself is a pure function of them.
-/

set_option maxHeartbeats 1000000
set_option maxRecDepth 8192

namespace ScreenAnalyzer

/-- Rust `Iterator::step_by` on a list: yields the element at index 0 and then
every `step`-th element after it.  All call sites in the embedded code pass
`step ≥ 1`. -/
def stepBy {α : Type} (step : Nat) : List α → List α
  | [] => []
  | x :: rest => x :: stepBy step (rest.drop (step - 1))
termination_by l => l.length
decreasing_by
  simp only [List.length_drop, List.length_cons]
  omega

/-- `OllamaProvider::sample_frames` (ollama.rs lines 44–50).
`none` models the Rust panic: when `frames.len() <= max_frames` does not hold
and `max_frames = 0`, the expression `frames.len() / max_frames` divides by
zero before `.max(1)` is applied, and the process panics. -/
def sample_frames {α : Type} (frames : List α) (max_frames : Nat) : Option (List α) :=
  if frames.length ≤ max_frames then some frames
  else if max_frames = 0 then none
  else some ((stepBy (Nat.max (frames.length / max_frames) 1) frames).take max_frames)

theorem stepBy_sublist {α : Type} (step : Nat) (l : List α) :
    (stepBy step l).Sublist l := by
  induction l using stepBy.induct step with
  | case1 => simp [stepBy]
  | case2 x rest ih =>
    rw [stepBy]
    exact List.Sublist.cons₂ x (ih.trans (List.drop_sublist _ _))

theorem stepBy_getElem? {α : Type} (step : Nat) (hs : 1 ≤ step) (l : List α) :
    ∀ j : Nat, (stepBy step l)[j]? = l[j * step]? := by
  induction l using stepBy.induct step with
  | case1 => intro j; simp [stepBy]
  | case2 x rest ih =>
    intro j
    rw [stepBy]
    match j with
    | 0 => simp
    | k + 1 =>
      have h2 : (k + 1) * step = (step - 1 + k * step) + 1 := by
        rw [Nat.succ_mul]; omega
      rw [h2, List.getElem?_cons_succ, List.getElem?_cons_succ, ih k,
        List.getElem?_drop]

/-- C1.  The claim says sampling with `M = 0` returns an empty sequence and
that the division in the stride computation is guarded.  In the code the
`.max(1)` guard is applied only *after* `frames.len() / max_frames` has been
evaluated, so for a non-empty input and `M = 0` the code divides by zero and
panics (the `none` branch of the embedding).  The code contradicts the spec's
stated edge case. -/
theorem sample_frames_zero_divides : sample_frames (["a"] : List String) 0 = none := rfl

/-- C2 (amended).  For every frame sequence and every bound `M` with `M ≥ 1`
(or with `N ≤ M`, which covers the empty-input case at `M = 0`; for `M = 0`
and a non-empty input the code panics, see C1): sampling succeeds and returns
a subsequence of the input of length at most `M` that preserves relative
order, is the identity when `N ≤ M`, and otherwise consists of exactly the
frames at indices `0, stride, 2·stride, …` with `stride = max(1, ⌊N/M⌋)`,
stopping after `M` frames or when the input is exhausted.  The function is a
pure Lean function, hence deterministic. -/
theorem sample_frames_correct {α : Type} (frames : List α) (M : Nat)
    (h : 0 < M ∨ frames.length ≤ M) :
    ∃ r, sample_frames frames M = some r ∧
      r.Sublist frames ∧
      r.length ≤ M ∧
      (frames.length ≤ M → r = frames) ∧
      (M < frames.length →
        ∀ j : Nat, r[j]? =
          if j < M then frames[j * Nat.max (frames.length / M) 1]? else none) := by
  by_cases hle : frames.length ≤ M
  · refine ⟨frames, ?_, List.Sublist.refl _, hle, fun _ => rfl, fun hM => ?_⟩
    · simp [sample_frames, hle]
    · omega
  · have hM : 0 < M := by
      rcases h with h | h
      · exact h
      · exact absurd h hle
    have hM0 : ¬ M = 0 := by omega
    have hs : 1 ≤ Nat.max (frames.length / M) 1 := Nat.le_max_right _ _
    refine ⟨(stepBy (Nat.max (frames.length / M) 1) frames).take M, ?_, ?_, ?_, ?_, ?_⟩
    · simp [sample_frames, hle, hM0]
    · exact (List.take_sublist _ _).trans (stepBy_sublist _ _)
    · simp
    · intro hc; exact absurd hc hle
    · intro _ j
      rw [List.getElem?_take]
      by_cases hj : j < M
      · rw [if_pos hj, if_pos hj, stepBy_getElem? _ hs]
      · rw [if_neg hj, if_neg hj]

/-- Witness for C2 at a concrete input (`N = 3`, `M = 2`). -/
theorem sample_frames_correct_witness :
    ∃ r, sample_frames (["a", "b", "c"] : List String) 2 = some r ∧
      r.Sublist ["a", "b", "c"] ∧
      r.length ≤ 2 ∧
      ((["a", "b", "c"] : List String).length ≤ 2 → r = ["a", "b", "c"]) ∧
      (2 < (["a", "b", "c"] : List String).length →
        ∀ j : Nat, r[j]? =
          if j < 2 then
            (["a", "b", "c"] : List String)[j * Nat.max ((["a", "b", "c"] : List String).length / 2) 1]?
          else none) :=
  sample_frames_correct ["a", "b", "c"] 2 (Or.inl (by decide))

/-- C2 counterexample to the claim as stated: at bound `M = 0` with a
non-empty input the code returns no sequence at all — the stride computation
divides by zero (Rust panic), so the universally quantified claim fails. -/
theorem sample_frames_zero_counterexample :
    sample_frames (["a", "b"] : List String) 0 = none := rfl

/-! ### Strings

Rust `&str` values are embedded as `List Char`.  `str::trim`,
`str::find(pat)` and `str::trim_start_matches(pat)` are translated below;
`trim` covers the ASCII whitespace cases of Rust's Unicode trim, which is
what the replies we reason about contain. -/

/-- ASCII whitespace. -/
def isWS (c : Char) : Bool := c = ' ' || c = '\t' || c = '\n' || c = '\r'

/-- Rust `str::trim`. -/
def trim (s : List Char) : List Char := (s.dropWhile isWS).rdropWhile isWS

/-- Rust `str::find(pat)`: index of the first occurrence of `pat` as a
contiguous substring, `none` when there is none. -/
def findSub (pat : List Char) : List Char → Option Nat
  | [] => if pat.isPrefixOf [] then some 0 else none
  | c :: rest =>
    if pat.isPrefixOf (c :: rest) then some 0
    else (findSub pat rest).map (· + 1)

/-- Fuel-based core of `str::trim_start_matches(pat)`: strips the pattern
from the front as long as it is a prefix.  One unit of fuel is spent per
stripped copy, and each copy is non-empty, so `s.length` fuel is enough. -/
def trimStartMatchesAux (pat : List Char) : Nat → List Char → List Char
  | 0, s => s
  | fuel + 1, s =>
    if pat ≠ [] ∧ pat.isPrefixOf s then trimStartMatchesAux pat fuel (s.drop pat.length)
    else s

/-- Rust `str::trim_start_matches(pat)`. -/
def trimStartMatches (pat s : List Char) : List Char :=
  trimStartMatchesAux pat s.length s

/-- The code-fence marker. -/
def fence : List Char := "```".toList

/-- The fenced opening with the only language tag the code recognises. -/
def openJson : List Char := "```json".toList

/-- The backtick character. -/
def btick : Char := Char.ofNat 96

/-- `OllamaProvider::extract_json_text` (ollama.rs lines 128–139). -/
def extract_json_text (raw : List Char) : List Char :=
  (findSub fence (trim raw)).elim (trim raw) (fun pos =>
    (findSub fence
        (trimStartMatches fence (trimStartMatches openJson ((trim raw).drop pos)))).elim
      (trim raw)
      (fun e =>
        trim ((trimStartMatches fence (trimStartMatches openJson ((trim raw).drop pos))).take e)))

theorem fence_eq : fence = [btick, btick, btick] := rfl

theorem openJson_eq : openJson = btick :: [btick, btick, 'j', 's', 'o', 'n'] := rfl

theorem openJson_eq_append : openJson = fence ++ "json".toList := rfl

theorem not_isPrefixOf_cons {a c : Char} {p t : List Char} (h : a ≠ c) :
    (a :: p).isPrefixOf (c :: t) = false := by
  rw [Bool.eq_false_iff]
  intro hpre
  rw [List.isPrefixOf_iff_prefix] at hpre
  rcases hpre with ⟨u, hu⟩
  rw [List.cons_append] at hu
  injection hu with h1 _
  exact h h1

theorem isPrefixOf_append_self (p r : List Char) : p.isPrefixOf (p ++ r) = true :=
  List.isPrefixOf_iff_prefix.mpr (List.prefix_append p r)

theorem isPrefixOf_nil_false {p : List Char} (h : p ≠ []) :
    p.isPrefixOf ([] : List Char) = false := by
  cases p with
  | nil => exact absurd rfl h
  | cons a t => rfl

theorem findSub_eq_some_iff (pat : List Char) :
    ∀ (s : List Char) (i : Nat),
      findSub pat s = some i ↔
        pat.isPrefixOf (s.drop i) = true ∧ ∀ j, j < i → pat.isPrefixOf (s.drop j) = false := by
  intro s
  induction s with
  | nil =>
    intro i
    by_cases hp : pat.isPrefixOf ([] : List Char) = true
    · simp only [findSub, if_pos hp, List.drop_nil, Option.some.injEq]
      constructor
      · rintro rfl
        exact ⟨hp, fun j hj => by omega⟩
      · rintro ⟨-, hall⟩
        by_contra hne
        have h0 := hall 0 (by omega)
        rw [hp] at h0
        exact Bool.noConfusion h0
    · simp only [findSub, if_neg hp, List.drop_nil]
      constructor
      · intro h; cases h
      · rintro ⟨h1, -⟩; exact absurd h1 hp
  | cons c rest ih =>
    intro i
    by_cases hp : pat.isPrefixOf (c :: rest) = true
    · simp only [findSub, if_pos hp, Option.some.injEq]
      constructor
      · rintro rfl
        exact ⟨by simpa using hp, fun j hj => by omega⟩
      · rintro ⟨-, hall⟩
        by_contra hne
        have h0 := hall 0 (by omega)
        rw [List.drop_zero, hp] at h0
        exact Bool.noConfusion h0
    · simp only [findSub, if_neg hp]
      cases i with
      | zero =>
        constructor
        · intro h
          rcases Option.map_eq_some'.mp h with ⟨i', hi', he⟩
          omega
        · rintro ⟨h1, -⟩
          rw [List.drop_zero] at h1
          exact absurd h1 hp
      | succ i' =>
        rw [List.drop_succ_cons]
        constructor
        · intro h
          rcases Option.map_eq_some'.mp h with ⟨k, hk, he⟩
          have hki : k = i' := by omega
          rw [hki] at hk
          rcases (ih i').mp hk with ⟨h1, h2⟩
          refine ⟨h1, fun j hj => ?_⟩
          cases j with
          | zero =>
            rw [List.drop_zero]
            exact Bool.eq_false_iff.mpr hp
          | succ j' =>
            rw [List.drop_succ_cons]
            exact h2 j' (by omega)
        · rintro ⟨h1, h2⟩
          have hk : findSub pat rest = some i' := by
            refine (ih i').mpr ⟨h1, fun j hj => ?_⟩
            have hj1 := h2 (j + 1) (by omega)
            rwa [List.drop_succ_cons] at hj1
          rw [hk]
          rfl

theorem findSub_eq_none_iff (pat : List Char) :
    ∀ s : List Char,
      findSub pat s = none ↔ ∀ j, pat.isPrefixOf (s.drop j) = false := by
  intro s
  induction s with
  | nil =>
    by_cases hp : pat.isPrefixOf ([] : List Char) = true
    · simp only [findSub, if_pos hp, List.drop_nil]
      constructor
      · intro h; cases h
      · intro hall
        have h0 := hall 0
        rw [hp] at h0
        exact Bool.noConfusion h0
    · simp only [findSub, if_neg hp, List.drop_nil]
      exact ⟨fun _ j => Bool.eq_false_iff.mpr hp, fun _ => trivial⟩
  | cons c rest ih =>
    by_cases hp : pat.isPrefixOf (c :: rest) = true
    · simp only [findSub, if_pos hp]
      constructor
      · intro h; cases h
      · intro hall
        have h0 := hall 0
        rw [List.drop_zero, hp] at h0
        exact Bool.noConfusion h0
    · simp only [findSub, if_neg hp]
      constructor
      · intro h j
        have hr : findSub pat rest = none := by
          cases hfr : findSub pat rest with
          | none => rfl
          | some k => rw [hfr] at h; exact absurd h (by simp)
        cases j with
        | zero =>
          rw [List.drop_zero]
          exact Bool.eq_false_iff.mpr hp
        | succ j' =>
          rw [List.drop_succ_cons]
          exact (ih.mp hr) j'
      · intro hall
        have hr : findSub pat rest = none := by
          refine ih.mpr fun j => ?_
          have hj1 := hall (j + 1)
          rwa [List.drop_succ_cons] at hj1
        rw [hr]; rfl

theorem trimStartMatchesAux_of_not_pre {pat s : List Char}
    (h : pat.isPrefixOf s = false) (fuel : Nat) :
    trimStartMatchesAux pat fuel s = s := by
  cases fuel with
  | zero => rfl
  | succ f =>
    rw [trimStartMatchesAux, if_neg]
    rintro ⟨-, hpre⟩
    rw [h] at hpre
    exact Bool.false_eq_true.mp hpre

theorem trimStartMatches_of_not_pre {pat s : List Char}
    (h : pat.isPrefixOf s = false) : trimStartMatches pat s = s :=
  trimStartMatchesAux_of_not_pre h _

theorem trimStartMatches_append {pat y : List Char} (hp : pat ≠ [])
    (hy : pat.isPrefixOf y = false) : trimStartMatches pat (pat ++ y) = y := by
  have hl : 0 < pat.length := List.length_pos.mpr hp
  obtain ⟨f, hf⟩ : ∃ f, (pat ++ y).length = f + 1 :=
    ⟨(pat ++ y).length - 1, by simp; omega⟩
  rw [trimStartMatches, hf, trimStartMatchesAux,
    if_pos ⟨hp, isPrefixOf_append_self pat y⟩, List.drop_left]
  exact trimStartMatchesAux_of_not_pre hy f

theorem trimStartMatchesAux_drop (pat : List Char) :
    ∀ (fuel : Nat) (s : List Char), s.length ≤ fuel →
      ∃ d, trimStartMatchesAux pat fuel s = s.drop d ∧
        (pat ≠ [] → pat.isPrefixOf s = true → pat.length ≤ d) := by
  intro fuel
  induction fuel with
  | zero =>
    intro s hs
    have : s = [] := List.eq_nil_of_length_eq_zero (by omega)
    subst this
    exact ⟨0, rfl, fun hne hpre => by
      rw [isPrefixOf_nil_false hne] at hpre
      exact absurd hpre (by simp)⟩
  | succ f ihf =>
    intro s hs
    by_cases hc : pat ≠ [] ∧ pat.isPrefixOf s
    · have hl : 0 < pat.length := List.length_pos.mpr hc.1
      have hlen : pat.length ≤ s.length :=
        (List.isPrefixOf_iff_prefix.mp hc.2).length_le
      rcases ihf (s.drop pat.length) (by simp; omega) with ⟨d', hd', -⟩
      refine ⟨d' + pat.length, ?_, fun _ _ => by omega⟩
      rw [trimStartMatchesAux, if_pos hc, hd', List.drop_drop, Nat.add_comm pat.length d']
    · refine ⟨0, ?_, fun hne hpre => absurd ⟨hne, hpre⟩ hc⟩
      rw [trimStartMatchesAux, if_neg hc, List.drop_zero]

theorem trimStartMatches_drop (pat s : List Char) :
    ∃ d, trimStartMatches pat s = s.drop d ∧
      (pat ≠ [] → pat.isPrefixOf s = true → pat.length ≤ d) :=
  trimStartMatchesAux_drop pat s.length s le_rfl

theorem extract_json_text_fenced (raw : List Char) (pos e : Nat)
    (h1 : findSub fence (trim raw) = some pos)
    (h2 : findSub fence
        (trimStartMatches fence (trimStartMatches openJson ((trim raw).drop pos))) = some e) :
    extract_json_text raw =
      trim ((trimStartMatches fence (trimStartMatches openJson ((trim raw).drop pos))).take e) := by
  unfold extract_json_text
  rw [h1, Option.elim_some, h2, Option.elim_some]

theorem extract_json_text_unclosed (raw : List Char) (pos : Nat)
    (h1 : findSub fence (trim raw) = some pos)
    (h2 : findSub fence
        (trimStartMatches fence (trimStartMatches openJson ((trim raw).drop pos))) = none) :
    extract_json_text raw = trim raw := by
  unfold extract_json_text
  rw [h1, Option.elim_some, h2, Option.elim_none]

theorem extract_json_text_nofence (raw : List Char)
    (h1 : findSub fence (trim raw) = none) :
    extract_json_text raw = trim raw := by
  unfold extract_json_text
  rw [h1, Option.elim_none]

theorem trim_within (s : List Char) : trim s <:+: s :=
  List.infix_iff_prefix_suffix.mpr
    ⟨s.dropWhile isWS, List.rdropWhile_prefix isWS (s.dropWhile isWS),
      List.dropWhile_suffix isWS⟩

theorem no_fence_in_trim {raw : List Char} (h : findSub fence raw = none) :
    findSub fence (trim raw) = none := by
  rw [findSub_eq_none_iff] at h ⊢
  intro j
  cases hb : fence.isPrefixOf ((trim raw).drop j) with
  | false => rfl
  | true =>
    exfalso
    have hinf : ((trim raw).drop j) <:+: raw :=
      (List.IsSuffix.isInfix (List.drop_suffix j (trim raw))).trans (trim_within raw)
    rcases hinf with ⟨u, v, huv⟩
    have hm : fence.isPrefixOf (raw.drop u.length) = true := by
      have hru : raw.drop u.length = ((trim raw).drop j) ++ v := by
        conv_lhs => rw [← huv]
        rw [List.append_assoc, List.drop_left]
      rw [hru]
      exact List.isPrefixOf_iff_prefix.mpr
        ((List.isPrefixOf_iff_prefix.mp hb).trans (List.prefix_append _ _))
    rw [h u.length] at hm
    exact Bool.noConfusion hm

theorem findSub_fence_before {a rest : List Char} (ha : ∀ ch ∈ a, ch ≠ btick)
    (hr : fence.isPrefixOf rest = true) :
    findSub fence (a ++ rest) = some a.length := by
  rw [findSub_eq_some_iff]
  constructor
  · rw [List.drop_left]
    exact hr
  · intro j hj
    rw [List.drop_append_of_le_length (by omega)]
    obtain ⟨ch, t2, hct⟩ := List.exists_cons_of_ne_nil (l := a.drop j) (by
      intro hnil
      have hlen := congrArg List.length hnil
      simp at hlen
      omega)
    rw [hct, fence_eq]
    refine not_isPrefixOf_cons ?_
    have hcb : ch ∈ a := by
      refine List.drop_subset j a ?_
      rw [hct]
      exact List.mem_cons_self _ _
    exact (ha ch hcb).symm

theorem json_not_pre_of_body {b rest : List Char}
    (hj : "json".toList.isPrefixOf b = false) (hr : ∃ r, rest = btick :: r) :
    "json".toList.isPrefixOf (b ++ rest) = false := by
  rcases hr with ⟨r, rfl⟩
  rw [Bool.eq_false_iff]
  intro hpre
  rw [List.isPrefixOf_iff_prefix] at hpre
  rcases hpre with ⟨tail, heq⟩
  rcases Nat.lt_or_ge b.length 4 with h4 | h4
  · have hidx : ("json".toList ++ tail)[b.length]? = (b ++ (btick :: r))[b.length]? := by
      rw [heq]
    rw [List.getElem?_append,
      if_pos (show b.length < ("json".toList).length from h4),
      List.getElem?_append_right (le_refl b.length), Nat.sub_self] at hidx
    have hr0 : (btick :: r)[0]? = some btick := by simp
    rw [hr0] at hidx
    set n := b.length with hn
    interval_cases n <;> exact absurd hidx (by decide)
  · have htake : ("json".toList ++ tail).take 4 = (b ++ (btick :: r)).take 4 := by rw [heq]
    have h40 : 4 - b.length = 0 := by omega
    rw [List.take_append_eq_append_take, List.take_append_eq_append_take, h40] at htake
    have hL : ("json".toList).take 4 = "json".toList := by decide
    have h44 : 4 - ("json".toList).length = 0 := by decide
    rw [hL, h44] at htake
    simp only [List.take_zero, List.append_nil] at htake
    have hpb : "json".toList.isPrefixOf b = true := by
      rw [List.isPrefixOf_iff_prefix, htake]
      exact List.take_prefix 4 b
    rw [hj] at hpb
    exact Bool.noConfusion hpb

theorem fence_not_pre_of_head {b y : List Char} {c : Char}
    (hbc : b = c :: y) (hc : c ≠ btick) : fence.isPrefixOf b = false := by
  rw [hbc, fence_eq]
  exact not_isPrefixOf_cons (fun he => hc he.symm)

theorem openJson_not_pre_of_head {b y : List Char} {c : Char}
    (hbc : b = c :: y) (hc : c ≠ btick) : openJson.isPrefixOf b = false := by
  rw [hbc, openJson_eq]
  exact not_isPrefixOf_cons (fun he => hc he.symm)

/-- C3 (amended).  For a reply with no fence marker, `extract_json_text`
returns the trimmed input unchanged.  For every reply whose trimmed text is
`a ++ "```json" ++ b ++ "```" ++ c` or (when the body does not begin with
the letters `json`) `a ++ "```" ++ b ++ "```" ++ c`, with `a` backtick-free
leading text, `b` a non-empty backtick-free body, and `c` an arbitrary tail,
it strips the fence delimiters and the literal `json` language tag and
returns the trimmed body.  Only the literal `json` tag is stripped — any
other language tag is kept as part of the extracted text (see the
counterexample).  At the degenerate corners the between-text is not
isolated: an empty body makes the tag-stripper consume both fences so the
function falls back to the whole trimmed input, and after a bare fence a
body beginning with the letters `json` loses those letters to the
tag-stripper. -/
theorem extract_json_text_correct :
    (∀ raw : List Char, findSub fence raw = none → extract_json_text raw = trim raw) ∧
    (∀ raw a b c : List Char,
      (∀ ch ∈ a, ch ≠ btick) → b ≠ [] → (∀ ch ∈ b, ch ≠ btick) →
      (trim raw = a ++ (openJson ++ (b ++ (fence ++ c))) →
        extract_json_text raw = trim b) ∧
      ("json".toList.isPrefixOf b = false →
        trim raw = a ++ (fence ++ (b ++ (fence ++ c))) →
        extract_json_text raw = trim b)) ∧
    extract_json_text "``````".toList = "``````".toList ∧
    extract_json_text "```jsonx```".toList = "x".toList := by
  refine ⟨?_, ?_, rfl, rfl⟩
  · intro raw h
    exact extract_json_text_nofence raw (no_fence_in_trim h)
  · intro raw a b c ha hb hbc
    obtain ⟨cb, yb, hcy⟩ := List.exists_cons_of_ne_nil hb
    have hcb : cb ≠ btick := hbc cb (by rw [hcy]; exact List.mem_cons_self _ _)
    have hbfc_cons : b ++ (fence ++ c) = cb :: (yb ++ (fence ++ c)) := by
      rw [hcy, List.cons_append]
    have hfence_b : fence.isPrefixOf (b ++ (fence ++ c)) = false :=
      fence_not_pre_of_head hbfc_cons hcb
    have hopen_b : openJson.isPrefixOf (b ++ (fence ++ c)) = false :=
      openJson_not_pre_of_head hbfc_cons hcb
    have hfind2 : findSub fence (b ++ (fence ++ c)) = some b.length :=
      findSub_fence_before hbc (isPrefixOf_append_self fence c)
    have htake : (b ++ (fence ++ c)).take b.length = b := List.take_left b _
    constructor
    · intro heq
      have hfind1 : findSub fence (trim raw) = some a.length := by
        rw [heq]
        refine findSub_fence_before ha ?_
        rw [openJson_eq_append, List.append_assoc]
        exact isPrefixOf_append_self _ _
      have hdrop : (trim raw).drop a.length = openJson ++ (b ++ (fence ++ c)) := by
        rw [heq, List.drop_left]
      have hTSM1 : trimStartMatches openJson (openJson ++ (b ++ (fence ++ c))) =
          b ++ (fence ++ c) :=
        trimStartMatches_append (by decide) hopen_b
      have hchain : trimStartMatches fence (trimStartMatches openJson
          ((trim raw).drop a.length)) = b ++ (fence ++ c) := by
        rw [hdrop, hTSM1, trimStartMatches_of_not_pre hfence_b]
      have hfind2a : findSub fence (trimStartMatches fence (trimStartMatches openJson
          ((trim raw).drop a.length))) = some b.length := by
        rw [hchain, hfind2]
      have hres := extract_json_text_fenced raw a.length b.length hfind1 hfind2a
      rw [hchain, htake] at hres
      exact hres
    · intro hjson heq
      have hfind1 : findSub fence (trim raw) = some a.length := by
        rw [heq]
        exact findSub_fence_before ha (isPrefixOf_append_self _ _)
      have hdrop : (trim raw).drop a.length = fence ++ (b ++ (fence ++ c)) := by
        rw [heq, List.drop_left]
      have hopen_s : openJson.isPrefixOf (fence ++ (b ++ (fence ++ c))) = false := by
        rw [openJson_eq_append, Bool.eq_false_iff]
        intro hpre
        rw [List.isPrefixOf_iff_prefix, List.prefix_append_right_inj] at hpre
        have hj2 : "json".toList.isPrefixOf (b ++ (fence ++ c)) = false :=
          json_not_pre_of_body hjson ⟨[btick, btick] ++ c, by rw [fence_eq]; rfl⟩
        rw [Bool.eq_false_iff] at hj2
        exact hj2 (List.isPrefixOf_iff_prefix.mpr hpre)
      have hTSM1 : trimStartMatches fence (fence ++ (b ++ (fence ++ c))) =
          b ++ (fence ++ c) :=
        trimStartMatches_append (by decide) hfence_b
      have hchain : trimStartMatches fence (trimStartMatches openJson
          ((trim raw).drop a.length)) = b ++ (fence ++ c) := by
        rw [hdrop, trimStartMatches_of_not_pre hopen_s, hTSM1]
      have hfind2a : findSub fence (trimStartMatches fence (trimStartMatches openJson
          ((trim raw).drop a.length))) = some b.length := by
        rw [hchain, hfind2]
      have hres := extract_json_text_fenced raw a.length b.length hfind1 hfind2a
      rw [hchain, htake] at hres
      exact hres

/-- Witness for C3 at concrete inputs: a `json`-tagged fenced block with
prose on both sides, and a fence-free reply. -/
theorem extract_json_text_correct_witness :
    extract_json_text "say: ```json abc``` ok".toList = trim " abc".toList ∧
    extract_json_text "hello".toList = trim "hello".toList :=
  ⟨(extract_json_text_correct.2.1 "say: ```json abc``` ok".toList "say: ".toList
      " abc".toList " ok".toList (by decide) (by decide) (by decide)).1 rfl,
   extract_json_text_correct.1 "hello".toList (by decide)⟩

/-- C3 counterexample: for a fenced reply with a language tag other than
`json` the code strips only the fence delimiters and the literal `json` tag,
so the `python` tag remains in the extracted text, contradicting the claim
that an arbitrary language tag immediately following the opening fence is
stripped. -/
theorem extract_json_text_language_tag_counterexample :
    extract_json_text "```python\nabc\n```".toList = "python\nabc".toList ∧
    "python\nabc".toList ≠ "abc".toList := by
  constructor
  · rfl
  · decide

/-- C10.  A reply whose trimmed text has its first fence marker at index `i`
and no fence marker at any index `≥ i + 3` (that is, an opening fence with no
closing fence after it): after the opening fence and the optional `json` tag
are stripped, no closing fence is found, and `extract_json_text` falls back
to returning the entire trimmed input — including the fence characters —
rather than failing or returning an empty string. -/
theorem extract_json_text_unclosed_fence (raw : List Char) (i : Nat)
    (h1 : fence.isPrefixOf ((trim raw).drop i) = true)
    (h2 : ∀ j, j < i → fence.isPrefixOf ((trim raw).drop j) = false)
    (h3 : ∀ j, j < (trim raw).length → i + 3 ≤ j →
      fence.isPrefixOf ((trim raw).drop j) = false) :
    extract_json_text raw = trim raw := by
  have hfind1 : findSub fence (trim raw) = some i :=
    (findSub_eq_some_iff fence (trim raw) i).mpr ⟨h1, h2⟩
  have h3' : ∀ j, i + 3 ≤ j → fence.isPrefixOf ((trim raw).drop j) = false := by
    intro j hj
    by_cases hlt : j < (trim raw).length
    · exact h3 j hlt hj
    · rw [List.drop_eq_nil_of_le (by omega)]
      exact isPrefixOf_nil_false (by decide)
  have hoff : ∃ d, trimStartMatches fence (trimStartMatches openJson ((trim raw).drop i)) =
      (trim raw).drop (d + i) ∧ 3 ≤ d := by
    by_cases hop : openJson.isPrefixOf ((trim raw).drop i) = true
    · obtain ⟨d1, hd1, hge1⟩ := trimStartMatches_drop openJson ((trim raw).drop i)
      obtain ⟨d2, hd2, -⟩ :=
        trimStartMatches_drop fence (trimStartMatches openJson ((trim raw).drop i))
      refine ⟨d2 + d1, ?_, ?_⟩
      · rw [hd2, hd1, List.drop_drop, List.drop_drop]
        congr 1
        omega
      · have h7 := hge1 (by decide) hop
        have h7' : openJson.length = 7 := by decide
        omega
    · have hd1 : trimStartMatches openJson ((trim raw).drop i) = (trim raw).drop i := by
        apply trimStartMatches_of_not_pre
        cases hx : openJson.isPrefixOf ((trim raw).drop i) with
        | false => rfl
        | true => exact absurd hx hop
      obtain ⟨d2, hd2, hge2⟩ := trimStartMatches_drop fence ((trim raw).drop i)
      rw [hd1]
      refine ⟨d2, ?_, ?_⟩
      · rw [hd2, List.drop_drop]
        congr 1
        omega
      · have h3le := hge2 (by decide) h1
        have h3l : fence.length = 3 := by decide
        omega
  obtain ⟨d, hd, hd3⟩ := hoff
  have hfind2 : findSub fence (trimStartMatches fence (trimStartMatches openJson
      ((trim raw).drop i))) = none := by
    rw [hd, findSub_eq_none_iff]
    intro j
    rw [List.drop_drop]
    exact h3' _ (by omega)
  exact extract_json_text_unclosed raw i hfind1 hfind2

/-- Witness for C10: `"x```json abc"` has its only fence marker at index 1 and
no closing fence, so the whole trimmed reply is returned. -/
theorem extract_json_text_unclosed_fence_witness :
    extract_json_text "x```json abc".toList = trim "x```json abc".toList :=
  extract_json_text_unclosed_fence "x```json abc".toList 1 (by decide) (by decide) (by decide)

/-! ### JSON

`serde_json::Value` is embedded as the inductive `Json`.  `serde_json` is an
external dependency of the repository, so its parser is modelled from the
spec's description ("parse the isolated text as a generic JSON value") by an
executable fuel-based recursive-descent parser; numbers are restricted to
integers and strings to the basic escapes, which covers every reply the
theorems evaluate. -/

inductive Json where
  | null : Json
  | bool (b : Bool) : Json
  | num (n : Int) : Json
  | str (s : List Char) : Json
  | arr (items : List Json) : Json
  | obj (fields : List (List Char × Json)) : Json

/-- Key lookup in a JSON object (`serde_json::Map::get`). -/
def jlookup (fields : List (List Char × Json)) (k : List Char) : Option Json :=
  match fields with
  | [] => none
  | (k2, v) :: rest => if k2 = k then some v else jlookup rest k

/-- `serde_json::Map::contains_key`. -/
def containsKey (fields : List (List Char × Json)) (k : List Char) : Bool :=
  (jlookup fields k).isSome

/-- Decimal digit test. -/
def isDig (c : Char) : Bool := 48 ≤ c.toNat && c.toNat ≤ 57

/-- Numeric value of a digit string, most significant digit first. -/
def digitsToNat (ds : List Char) : Nat :=
  ds.foldl (fun acc c => acc * 10 + (c.toNat - 48)) 0

/-- Skip JSON whitespace. -/
def skipWs : List Char → List Char
  | c :: rest => if isWS c then skipWs rest else c :: rest
  | [] => []

/-- Strip an expected literal. -/
def stripLit (pat s : List Char) : Option (List Char) :=
  if pat.isPrefixOf s then some (s.drop pat.length) else none

/-- The characters `\x7b` and `\x7d`. -/
def openBrace : Char := Char.ofNat 123

def closeBrace : Char := Char.ofNat 125

/-- Parse a JSON string body after the opening quote; returns the decoded
content and the remainder after the closing quote. -/
def parseStringBody : Nat → List Char → Option (List Char × List Char)
  | 0, _ => none
  | fuel + 1, s =>
    match s with
    | [] => none
    | c :: rest =>
      if c = '"' then some ([], rest)
      else if c = '\\' then
        match rest with
        | [] => none
        | e :: r2 =>
          match
            (if e = '"' then some '"'
             else if e = '\\' then some '\\'
             else if e = '/' then some '/'
             else if e = 'n' then some '\n'
             else if e = 't' then some '\t'
             else if e = 'r' then some '\r'
             else none : Option Char) with
          | none => none
          | some ec => (parseStringBody fuel r2).map (fun p => (ec :: p.1, p.2))
      else (parseStringBody fuel rest).map (fun p => (c :: p.1, p.2))

/-- Parse an integer JSON number. -/
def parseNumber (s : List Char) : Option (Int × List Char) :=
  match s with
  | '-' :: rest =>
    if rest.takeWhile isDig = [] then none
    else some (-(digitsToNat (rest.takeWhile isDig) : Int), rest.dropWhile isDig)
  | _ =>
    if s.takeWhile isDig = [] then none
    else some ((digitsToNat (s.takeWhile isDig) : Int), s.dropWhile isDig)

mutual

/-- One JSON value and the remaining input. -/
def parseJsonVal : Nat → List Char → Option (Json × List Char)
  | 0, _ => none
  | fuel + 1, s0 =>
    match skipWs s0 with
    | [] => none
    | c :: rest =>
      if c = '"' then (parseStringBody (fuel + 1) rest).map (fun p => (Json.str p.1, p.2))
      else if c = 't' then (stripLit "rue".toList rest).map (fun r => (Json.bool true, r))
      else if c = 'f' then (stripLit "alse".toList rest).map (fun r => (Json.bool false, r))
      else if c = 'n' then (stripLit "ull".toList rest).map (fun r => (Json.null, r))
      else if c = '[' then
        match skipWs rest with
        | ']' :: r2 => some (Json.arr [], r2)
        | r2 => (parseArrItems fuel r2).map (fun p => (Json.arr p.1, p.2))
      else if c = openBrace then
        match skipWs rest with
        | [] => none
        | d :: r2 =>
          if d = closeBrace then some (Json.obj [], r2)
          else (parseObjItems fuel (d :: r2)).map (fun p => (Json.obj p.1, p.2))
      else (parseNumber (c :: rest)).map (fun p => (Json.num p.1, p.2))

/-- The items of a non-empty JSON array, up to and including `]`. -/
def parseArrItems : Nat → List Char → Option (List Json × List Char)
  | 0, _ => none
  | fuel + 1, s =>
    match parseJsonVal fuel s with
    | none => none
    | some (v, r) =>
      match skipWs r with
      | ',' :: r2 => (parseArrItems fuel r2).map (fun p => (v :: p.1, p.2))
      | ']' :: r2 => some ([v], r2)
      | _ => none

/-- The members of a non-empty JSON object, up to and including `\x7d`. -/
def parseObjItems : Nat → List Char → Option (List (List Char × Json) × List Char)
  | 0, _ => none
  | fuel + 1, s =>
    match skipWs s with
    | '"' :: r =>
      match parseStringBody (fuel + 1) r with
      | none => none
      | some (k, r2) =>
        match skipWs r2 with
        | ':' :: r3 =>
          match parseJsonVal fuel r3 with
          | none => none
          | some (v, r4) =>
            match skipWs r4 with
            | ',' :: r5 => (parseObjItems fuel r5).map (fun p => ((k, v) :: p.1, p.2))
            | d :: r5 => if d = closeBrace then some ([(k, v)], r5) else none
            | [] => none
        | _ => none
    | _ => none

end

/-- Modelled from the spec: `serde_json::from_str` — parse a complete JSON
document; everything but trailing whitespace must be consumed. -/
def parseJson (s : List Char) : Option Json :=
  match parseJsonVal (s.length + 1) s with
  | some (v, rest) => if skipWs rest = [] then some v else none
  | none => none

/-! ### Timestamps and the session-summary structure

`SessionSummary` and its serde conversions live in the repository's
`plugin.rs`, which is not under `src/`; they are modelled from the spec
(§3).  chrono timestamps are modelled as counts of time units (`Nat`) whose
JSON serialization is their decimal text; the ordering is numeric order.
None of the claims depend on the concrete RFC 3339 text format, only on the
round trip and the order. -/

/-- Decimal digits of `n`, most significant first, by repeated division
(structural on the fuel so that it evaluates in the kernel; `fuel ≥ n`
suffices since the argument shrinks at every step). -/
def encodeNatAux : Nat → Nat → List Char
  | 0, _ => []
  | fuel + 1, n =>
    if n = 0 then []
    else encodeNatAux fuel (n / 10) ++ [Char.ofNat (48 + n % 10)]

/-- Modelled from the spec: serialization of a timestamp
(`serde_json::to_value(now)` for a chrono time). -/
def encodeTime (t : Nat) : List Char :=
  if t = 0 then ['0'] else encodeNatAux (t + 1) t

/-- Modelled from the spec: deserialization of a timestamp. -/
def decodeTime (s : List Char) : Option Nat :=
  if s ≠ [] ∧ s.all isDig then some (digitsToNat s) else none

theorem digit_char_spec {d : Nat} (hd : d < 10) :
    isDig (Char.ofNat (48 + d)) = true ∧ (Char.ofNat (48 + d)).toNat - 48 = d := by
  interval_cases d <;> exact ⟨by decide, by decide⟩

theorem encodeNatAux_foldl :
    ∀ (fuel n : Nat), n ≤ fuel → ∀ acc : Nat,
      (encodeNatAux fuel n).foldl (fun acc c => acc * 10 + (c.toNat - 48)) acc =
        acc * 10 ^ (encodeNatAux fuel n).length + n := by
  intro fuel
  induction fuel with
  | zero =>
    intro n hn acc
    have hn0 : n = 0 := by omega
    subst hn0
    simp [encodeNatAux]
  | succ f ihf =>
    intro n hn acc
    by_cases h0 : n = 0
    · subst h0
      simp [encodeNatAux]
    · have hstep : encodeNatAux (f + 1) n =
          encodeNatAux f (n / 10) ++ [Char.ofNat (48 + n % 10)] := by
        rw [encodeNatAux, if_neg h0]
      have hdivle : n / 10 ≤ f := by
        have := Nat.div_lt_self (Nat.pos_of_ne_zero h0) (by norm_num : 1 < 10)
        omega
      have hmod := digit_char_spec (Nat.mod_lt n (by norm_num : 0 < 10))
      rw [hstep, List.foldl_append]
      simp only [List.foldl_cons, List.foldl_nil]
      rw [ihf (n / 10) hdivle acc, hmod.2, List.length_append]
      simp only [List.length_singleton]
      have hpow : 10 ^ ((encodeNatAux f (n / 10)).length + 1) =
          10 ^ (encodeNatAux f (n / 10)).length * 10 := pow_succ 10 _
      have hdm : n / 10 * 10 + n % 10 = n := by
        have := Nat.div_add_mod n 10
        omega
      rw [hpow]
      ring_nf
      omega

theorem encodeNatAux_all_dig :
    ∀ (fuel n : Nat) (c : Char), c ∈ encodeNatAux fuel n → isDig c = true := by
  intro fuel
  induction fuel with
  | zero => intro n c hc; simp [encodeNatAux] at hc
  | succ f ihf =>
    intro n c hc
    by_cases h0 : n = 0
    · subst h0; simp [encodeNatAux] at hc
    · rw [encodeNatAux, if_neg h0, List.mem_append] at hc
      rcases hc with hc | hc
      · exact ihf _ c hc
      · rw [List.mem_singleton] at hc
        subst hc
        exact (digit_char_spec (Nat.mod_lt n (by norm_num : 0 < 10))).1

theorem decode_encode_time (t : Nat) : decodeTime (encodeTime t) = some t := by
  by_cases h0 : t = 0
  · subst h0; decide
  · have henc : encodeTime t = encodeNatAux (t + 1) t := by
      rw [encodeTime, if_neg h0]
    have hne : encodeNatAux (t + 1) t ≠ [] := by
      rw [encodeNatAux, if_neg h0]
      simp
    unfold decodeTime
    rw [henc, if_pos ⟨hne, List.all_eq_true.mpr (fun c hc => encodeNatAux_all_dig _ _ c hc)⟩]
    unfold digitsToNat
    rw [encodeNatAux_foldl (t + 1) t (by omega) 0]
    simp

/-- Modelled from the spec (§3): one tag entry of a session summary.  The
confidence field of the Rust struct is a float; no claim touches its value,
so it is embedded via the integer numbers of the JSON model. -/
structure TagItem where
  category : List Char
  confidence : Int
  keywords : List (List Char)
deriving DecidableEq

/-- Modelled from the spec (§3): one key moment of a session summary. -/
structure KeyMoment where
  time : List Char
  description : List Char
  importance : Int
deriving DecidableEq

/-- Modelled from the spec (§3): the session-summary output contract. -/
structure SessionSummary where
  title : List Char
  summary : List Char
  tags : List TagItem
  key_moments : List KeyMoment
  productivity_score : Int
  focus_score : Int
  start_time : Nat
  end_time : Nat
deriving DecidableEq

def toStr : Json → Option (List Char)
  | .str s => some s
  | _ => none

def toInt : Json → Option Int
  | .num n => some n
  | _ => none

def toTime : Json → Option Nat
  | .str s => decodeTime s
  | _ => none

/-- The six tag categories the spec allows. -/
def allowedCategories : List (List Char) :=
  ["work".toList, "communication".toList, "learning".toList,
   "personal".toList, "idle".toList, "other".toList]

def toStrList : Json → Option (List (List Char))
  | .arr xs => xs.mapM toStr
  | _ => none

def toTag (j : Json) : Option TagItem :=
  match j with
  | .obj kvs =>
    match (jlookup kvs "category".toList).bind toStr with
    | none => none
    | some c =>
      if allowedCategories.contains c then
        match (jlookup kvs "confidence".toList).bind toInt,
            (jlookup kvs "keywords".toList).bind toStrList with
        | some conf, some kws => some ⟨c, conf, kws⟩
        | _, _ => none
      else none
  | _ => none

def toTagList : Json → Option (List TagItem)
  | .arr xs => xs.mapM toTag
  | _ => none

def toKeyMoment (j : Json) : Option KeyMoment :=
  match j with
  | .obj kvs =>
    match (jlookup kvs "time".toList).bind toStr,
        (jlookup kvs "description".toList).bind toStr,
        (jlookup kvs "importance".toList).bind toInt with
    | some t, some d, some imp => some ⟨t, d, imp⟩
    | _, _, _ => none
  | _ => none

def toKeyMomentList : Json → Option (List KeyMoment)
  | .arr xs => xs.mapM toKeyMoment
  | _ => none

/-- Field extraction of the summary conversion on a JSON object. -/
def from_value_obj (kvs : List (List Char × Json)) : Option SessionSummary :=
  match (jlookup kvs "title".toList).bind toStr,
      (jlookup kvs "summary".toList).bind toStr,
      (jlookup kvs "tags".toList).bind toTagList,
      (jlookup kvs "key_moments".toList).bind toKeyMomentList,
      (jlookup kvs "productivity_score".toList).bind toInt,
      (jlookup kvs "focus_score".toList).bind toInt,
      (jlookup kvs "start_time".toList).bind toTime,
      (jlookup kvs "end_time".toList).bind toTime with
  | some t, some sm, some tg, some km, some ps, some fs, some st, some et =>
    some ⟨t, sm, tg, km, ps, fs, st, et⟩
  | _, _, _, _, _, _, _, _ => none

/-- Modelled from the spec: `serde_json::from_value::<SessionSummary>` — the
strict structural conversion for the summary struct (every field required,
unknown keys ignored, a mismatch is an error). -/
def from_value : Json → Option SessionSummary
  | .obj kvs => from_value_obj kvs
  | _ => none

/-- The schema-repair step of `parse_session_summary` (ollama.rs lines
150–158): insert the current time for each missing time field. -/
def inject_missing_times (kvs : List (List Char × Json)) (now : Nat) :
    List (List Char × Json) :=
  let kvs1 := if containsKey kvs "start_time".toList then kvs
    else kvs ++ [("start_time".toList, Json.str (encodeTime now))]
  if containsKey kvs1 "end_time".toList then kvs1
  else kvs1 ++ [("end_time".toList, Json.str (encodeTime now))]

/-- Error text of the invalid-JSON failure (ollama.rs line 145); the raw
reply is appended, as `anyhow!("… raw=\x7b\x7d", raw)` does. -/
def json_err_head : List Char := "Ollama 返回不是合法 JSON; raw=".toList

/-- Error text of the structural-conversion failure (ollama.rs line 161). -/
def schema_err : List Char := "invalid SessionSummary".toList

/-- The schema-repair dispatch (ollama.rs line 150: `if let Some(obj) =
v.as_object_mut()`): only objects are repaired. -/
def repair_value (v : Json) (now : Nat) : Json :=
  match v with
  | .obj kvs => .obj (inject_missing_times kvs now)
  | w => w

/-- The temporal-invariant enforcement (ollama.rs lines 163–167): an inverted
range is collapsed onto the current time. -/
def finish_summary (summary : SessionSummary) (now : Nat) : SessionSummary :=
  if summary.end_time < summary.start_time then
    { summary with start_time := now, end_time := now }
  else summary

/-- `OllamaProvider::parse_session_summary` (ollama.rs lines 141–169).  The
wall clock is passed in as `now`; the source reads the clock twice (once for
injection, once for the final repair), and the single parameter stands for
both reads — no claim distinguishes them. -/
def parse_session_summary (raw : List Char) (now : Nat) :
    Except (List Char) SessionSummary :=
  (parseJson (extract_json_text raw)).elim (.error (json_err_head ++ raw)) (fun v =>
    (from_value (repair_value v now)).elim (.error schema_err) (fun summary =>
      .ok (finish_summary summary now)))

theorem jlookup_append_of_none {kvs : List (List Char × Json)} {k : List Char}
    (h : jlookup kvs k = none) (l2 : List (List Char × Json)) :
    jlookup (kvs ++ l2) k = jlookup l2 k := by
  induction kvs with
  | nil => rw [List.nil_append]
  | cons p rest ih =>
    obtain ⟨k2, v⟩ := p
    rw [jlookup] at h
    by_cases hk : k2 = k
    · rw [if_pos hk] at h; cases h
    · rw [if_neg hk] at h
      rw [List.cons_append, jlookup, if_neg hk]
      exact ih h

theorem jlookup_of_not_contains {kvs : List (List Char × Json)} {k : List Char}
    (h : containsKey kvs k = false) : jlookup kvs k = none := by
  unfold containsKey at h
  cases hl : jlookup kvs k with
  | none => rfl
  | some v => rw [hl] at h; cases h

theorem stKey_ne_etKey : ("start_time".toList : List Char) ≠ "end_time".toList := by decide

theorem inject_missing_times_eq {kvs : List (List Char × Json)} {now : Nat}
    (hs : containsKey kvs "start_time".toList = false)
    (he : containsKey kvs "end_time".toList = false) :
    inject_missing_times kvs now =
      kvs ++ [("start_time".toList, Json.str (encodeTime now)),
        ("end_time".toList, Json.str (encodeTime now))] := by
  have hs' : ¬ (containsKey kvs "start_time".toList = true) := by
    intro hcon
    rw [hs] at hcon
    exact Bool.noConfusion hcon
  have hc2 : containsKey
      (kvs ++ [("start_time".toList, Json.str (encodeTime now))]) "end_time".toList = false := by
    unfold containsKey
    rw [jlookup_append_of_none (jlookup_of_not_contains he)]
    simp [jlookup, stKey_ne_etKey]
  have hc2' : ¬ (containsKey
      (kvs ++ [("start_time".toList, Json.str (encodeTime now))]) "end_time".toList = true) := by
    intro hcon
    rw [hc2] at hcon
    exact Bool.noConfusion hcon
  unfold inject_missing_times
  rw [if_neg hs', if_neg hc2', List.append_assoc]
  rfl

theorem inject_lookup_start {kvs : List (List Char × Json)} {now : Nat}
    (hs : containsKey kvs "start_time".toList = false) :
    jlookup (inject_missing_times kvs now) "start_time".toList =
      some (Json.str (encodeTime now)) := by
  have hs' : ¬ (containsKey kvs "start_time".toList = true) := by
    intro hcon
    rw [hs] at hcon
    exact Bool.noConfusion hcon
  unfold inject_missing_times
  rw [if_neg hs']
  by_cases hc : containsKey
      (kvs ++ [("start_time".toList, Json.str (encodeTime now))]) "end_time".toList = true
  · rw [if_pos hc, jlookup_append_of_none (jlookup_of_not_contains hs)]
    simp [jlookup]
  · rw [if_neg hc, List.append_assoc,
      jlookup_append_of_none (jlookup_of_not_contains hs)]
    simp [jlookup]

theorem inject_lookup_end {kvs : List (List Char × Json)} {now : Nat}
    (he : containsKey kvs "end_time".toList = false) :
    jlookup (inject_missing_times kvs now) "end_time".toList =
      some (Json.str (encodeTime now)) := by
  have he' : ¬ (containsKey kvs "end_time".toList = true) := by
    intro hcon
    rw [he] at hcon
    exact Bool.noConfusion hcon
  unfold inject_missing_times
  by_cases hsc : containsKey kvs "start_time".toList = true
  · rw [if_pos hsc, if_neg he', jlookup_append_of_none (jlookup_of_not_contains he)]
    simp [jlookup]
  · rw [if_neg hsc]
    have hc2 : containsKey
        (kvs ++ [("start_time".toList, Json.str (encodeTime now))]) "end_time".toList
          = false := by
      unfold containsKey
      rw [jlookup_append_of_none (jlookup_of_not_contains he)]
      simp [jlookup, stKey_ne_etKey]
    have hc2' : ¬ (containsKey
        (kvs ++ [("start_time".toList, Json.str (encodeTime now))]) "end_time".toList
          = true) := by
      intro hcon
      rw [hc2] at hcon
      exact Bool.noConfusion hcon
    rw [if_neg hc2', List.append_assoc,
      jlookup_append_of_none (jlookup_of_not_contains he)]
    simp [jlookup, stKey_ne_etKey]

theorem from_value_obj_fields {kvs : List (List Char × Json)} {s : SessionSummary}
    (h : from_value_obj kvs = some s) :
    (jlookup kvs "start_time".toList).bind toTime = some s.start_time ∧
    (jlookup kvs "end_time".toList).bind toTime = some s.end_time := by
  unfold from_value_obj at h
  split at h
  · rename_i t sm tg km ps fs st et ht hsm htg hkm hps hfs hst het
    injection h with h
    subst h
    exact ⟨hst, het⟩
  · cases h

theorem parse_session_summary_invalid {raw : List Char} (now : Nat)
    (h : parseJson (extract_json_text raw) = none) :
    parse_session_summary raw now = .error (json_err_head ++ raw) := by
  unfold parse_session_summary
  rw [h, Option.elim_none]

theorem parse_session_summary_parsed {raw : List Char} {v : Json} (now : Nat)
    (h : parseJson (extract_json_text raw) = some v) :
    parse_session_summary raw now =
      (from_value (repair_value v now)).elim (.error schema_err) (fun summary =>
        .ok (finish_summary summary now)) := by
  unfold parse_session_summary
  rw [h, Option.elim_some]

/-- C6.  A reply whose text — after trimming and fence-stripping — is not
valid JSON makes `parse_session_summary` return a failure whose message
contains the original raw reply text. -/
theorem parse_session_summary_invalid_json :
    ∀ (raw : List Char) (now : Nat),
      parseJson (extract_json_text raw) = none →
      ∃ e, parse_session_summary raw now = .error e ∧ ∃ a b, e = a ++ raw ++ b := by
  intro raw now h
  exact ⟨json_err_head ++ raw, parse_session_summary_invalid now h,
    json_err_head, [], by simp⟩

/-- Witness for C6: `"hello"` is not JSON, and the error embeds it. -/
theorem parse_session_summary_invalid_json_witness :
    ∃ e, parse_session_summary "hello".toList 5 = .error e ∧
      ∃ a b, e = a ++ "hello".toList ++ b :=
  parse_session_summary_invalid_json "hello".toList 5 rfl

/-- C4.  Every summary returned successfully satisfies
`start_time ≤ end_time`; in particular, whenever the converted summary has
`start_time > end_time`, both fields are reset to the single `now`
timestamp, so the returned summary has `start_time = end_time`. -/
theorem parse_session_summary_time_invariant :
    (∀ (raw : List Char) (now : Nat) (s : SessionSummary),
      parse_session_summary raw now = .ok s → s.start_time ≤ s.end_time) ∧
    (∀ (raw : List Char) (now : Nat) (v : Json) (s0 : SessionSummary),
      parseJson (extract_json_text raw) = some v →
      from_value (repair_value v now) = some s0 →
      s0.end_time < s0.start_time →
      parse_session_summary raw now =
        .ok { s0 with start_time := now, end_time := now }) := by
  constructor
  · intro raw now s h
    unfold parse_session_summary at h
    cases hp : parseJson (extract_json_text raw) with
    | none => rw [hp, Option.elim_none] at h; cases h
    | some v =>
      rw [hp, Option.elim_some] at h
      cases hf : from_value (repair_value v now) with
      | none => rw [hf, Option.elim_none] at h; cases h
      | some summ =>
        rw [hf, Option.elim_some] at h
        injection h with h
        subst h
        unfold finish_summary
        by_cases hc : summ.end_time < summ.start_time
        · rw [if_pos hc]
        · rw [if_neg hc]
          omega
  · intro raw now v s0 hp hf hlt
    rw [parse_session_summary_parsed now hp, hf, Option.elim_some]
    unfold finish_summary
    rw [if_pos hlt]

/-- A concrete reply whose JSON object carries `start_time > end_time`. -/
def rawInverted : List Char :=
  ("\x7b\"title\":\"t\",\"summary\":\"s\",\"tags\":[],\"key_moments\":[],"
    ++ "\"productivity_score\":1,\"focus_score\":2,"
    ++ "\"start_time\":\"9\",\"end_time\":\"3\"\x7d").toList

/-- The generic JSON value `rawInverted` parses to. -/
def valInverted : Json :=
  Json.obj [("title".toList, Json.str "t".toList),
    ("summary".toList, Json.str "s".toList),
    ("tags".toList, Json.arr []),
    ("key_moments".toList, Json.arr []),
    ("productivity_score".toList, Json.num 1),
    ("focus_score".toList, Json.num 2),
    ("start_time".toList, Json.str "9".toList),
    ("end_time".toList, Json.str "3".toList)]

/-- Witness for C4 at the concrete inverted-range reply, with `now = 7`. -/
theorem parse_session_summary_time_invariant_witness :
    parse_session_summary rawInverted 7 =
      .ok ⟨"t".toList, "s".toList, [], [], 1, 2, 7, 7⟩ :=
  parse_session_summary_time_invariant.2 rawInverted 7 valInverted
    ⟨"t".toList, "s".toList, [], [], 1, 2, 9, 3⟩ rfl rfl (by decide)

/-- C5.  A reply that parses as a JSON object lacking a `start_time` field,
an `end_time` field, or both has the current wall-clock time injected for
each missing field before structural conversion: provided the remaining
fields convert, parsing succeeds — rather than failing — and every missing
field of the returned summary holds the injected timestamp `now` (in the
model timestamps are `Nat`, so a populated field is by construction a valid,
non-null timestamp).  When both fields are missing the converted summary is
returned as is, with `start_time = end_time = now`. -/
theorem parse_session_summary_injects_times :
    ∀ (raw : List Char) (now : Nat) (kvs : List (List Char × Json)) (s : SessionSummary),
      parseJson (extract_json_text raw) = some (Json.obj kvs) →
      from_value_obj (inject_missing_times kvs now) = some s →
      (∃ s2, parse_session_summary raw now = .ok s2 ∧
        (containsKey kvs "start_time".toList = false → s2.start_time = now) ∧
        (containsKey kvs "end_time".toList = false → s2.end_time = now)) ∧
      (containsKey kvs "start_time".toList = false →
        containsKey kvs "end_time".toList = false →
        parse_session_summary raw now = .ok s ∧
        s.start_time = now ∧ s.end_time = now) := by
  intro raw now kvs s hp hf
  have hchain : parse_session_summary raw now = .ok (finish_summary s now) := by
    rw [parse_session_summary_parsed now hp]
    rw [show repair_value (Json.obj kvs) now =
      Json.obj (inject_missing_times kvs now) from rfl]
    rw [show from_value (Json.obj (inject_missing_times kvs now)) =
      from_value_obj (inject_missing_times kvs now) from rfl]
    rw [hf, Option.elim_some]
  obtain ⟨hst0, het0⟩ := from_value_obj_fields hf
  have hstv : toTime (Json.str (encodeTime now)) = some now := by
    simp [toTime, decode_encode_time]
  have hss : containsKey kvs "start_time".toList = false → s.start_time = now := by
    intro hs
    rw [inject_lookup_start hs, Option.some_bind, hstv] at hst0
    injection hst0 with h
    exact h.symm
  have hee : containsKey kvs "end_time".toList = false → s.end_time = now := by
    intro he
    rw [inject_lookup_end he, Option.some_bind, hstv] at het0
    injection het0 with h
    exact h.symm
  constructor
  · refine ⟨finish_summary s now, hchain, ?_, ?_⟩
    · intro hs
      unfold finish_summary
      by_cases hc : s.end_time < s.start_time
      · rw [if_pos hc]
      · rw [if_neg hc]
        exact hss hs
    · intro he
      unfold finish_summary
      by_cases hc : s.end_time < s.start_time
      · rw [if_pos hc]
      · rw [if_neg hc]
        exact hee he
  · intro hs he
    have h1 := hss hs
    have h2 := hee he
    have hfin : finish_summary s now = s := by
      unfold finish_summary
      rw [if_neg (by omega)]
    rw [hfin] at hchain
    exact ⟨hchain, h1, h2⟩

/-- A concrete reply whose JSON object has no `start_time`/`end_time`. -/
def rawNoTimes : List Char :=
  ("\x7b\"title\":\"t\",\"summary\":\"s\",\"tags\":[],\"key_moments\":[],"
    ++ "\"productivity_score\":1,\"focus_score\":2\x7d").toList

/-- The key-value list `rawNoTimes` parses to. -/
def kvsNoTimes : List (List Char × Json) :=
  [("title".toList, Json.str "t".toList),
    ("summary".toList, Json.str "s".toList),
    ("tags".toList, Json.arr []),
    ("key_moments".toList, Json.arr []),
    ("productivity_score".toList, Json.num 1),
    ("focus_score".toList, Json.num 2)]

/-- A concrete reply whose JSON object has `start_time` but no `end_time`. -/
def rawNoEnd : List Char :=
  ("\x7b\"title\":\"t\",\"summary\":\"s\",\"tags\":[],\"key_moments\":[],"
    ++ "\"productivity_score\":1,\"focus_score\":2,\"start_time\":\"2\"\x7d").toList

/-- The key-value list `rawNoEnd` parses to. -/
def kvsNoEnd : List (List Char × Json) :=
  [("title".toList, Json.str "t".toList),
    ("summary".toList, Json.str "s".toList),
    ("tags".toList, Json.arr []),
    ("key_moments".toList, Json.arr []),
    ("productivity_score".toList, Json.num 1),
    ("focus_score".toList, Json.num 2),
    ("start_time".toList, Json.str "2".toList)]

/-- Witness for C5: the both-missing reply at `now = 5` (strong conjunct) and
the end-only-missing reply at `now = 7` (per-field conjunct). -/
theorem parse_session_summary_injects_times_witness :
    (parse_session_summary rawNoTimes 5 =
        .ok ⟨"t".toList, "s".toList, [], [], 1, 2, 5, 5⟩ ∧
      (⟨"t".toList, "s".toList, [], [], 1, 2, 5, 5⟩ : SessionSummary).start_time = 5 ∧
      (⟨"t".toList, "s".toList, [], [], 1, 2, 5, 5⟩ : SessionSummary).end_time = 5) ∧
    (∃ s2, parse_session_summary rawNoEnd 7 = .ok s2 ∧
      (containsKey kvsNoEnd "start_time".toList = false → s2.start_time = 7) ∧
      (containsKey kvsNoEnd "end_time".toList = false → s2.end_time = 7)) :=
  ⟨(parse_session_summary_injects_times rawNoTimes 5 kvsNoTimes
      ⟨"t".toList, "s".toList, [], [], 1, 2, 5, 5⟩ rfl rfl).2 (by decide) (by decide),
   (parse_session_summary_injects_times rawNoEnd 7 kvsNoEnd
      ⟨"t".toList, "s".toList, [], [], 1, 2, 2, 7⟩ rfl rfl).1⟩

/-! ### The provider

The HTTP client and the optional database/session handles of the Rust struct
play no part in any claim; the collaborators they feed (file reads, the chat
round trip, the wall clock) are passed to `analyze_frames` as explicit
arguments instead. -/

/-- The state of `OllamaProvider` (ollama.rs lines 14–22). -/
structure OllamaProvider where
  base_url : List Char
  model : List Char
  configured : Bool
deriving DecidableEq

/-- `OllamaProvider::new` (ollama.rs lines 25–34). -/
def OllamaProvider.new : OllamaProvider :=
  ⟨"http://100.82.18.91:11434".toList, "qwen3-vl:32b".toList, true⟩

/-- `serde_json::Value::get(key)`: object lookup, `none` on non-objects. -/
def jget (config : Json) (k : List Char) : Option Json :=
  match config with
  | .obj kvs => jlookup kvs k
  | _ => none

/-- `Value::as_str`. -/
def as_str : Json → Option (List Char)
  | .str s => some s
  | _ => none

/-- `config.get("base_url").and_then(|v| v.as_str())` applied to the state
(ollama.rs lines 211–213). -/
def apply_base_url (p : OllamaProvider) (r : Option (List Char)) : OllamaProvider :=
  match r with
  | some u => { p with base_url := u }
  | none => p

/-- `config.get("model").and_then(|v| v.as_str())` applied to the state
(ollama.rs lines 214–216). -/
def apply_model (p : OllamaProvider) (r : Option (List Char)) : OllamaProvider :=
  match r with
  | some m => { p with model := m }
  | none => p

/-- `LLMProvider::configure` for the Ollama provider (ollama.rs lines
210–220).  The Rust method mutates `self` and unconditionally returns
`Ok(())`; the embedding returns the updated state. -/
def configure (p : OllamaProvider) (config : Json) : OllamaProvider :=
  let p2 := apply_model (apply_base_url p ((jget config "base_url".toList).bind as_str))
    ((jget config "model".toList).bind as_str)
  { p2 with configured := !(trim p2.base_url).isEmpty }

/-- `LLMProvider::is_configured` (ollama.rs lines 222–224). -/
def is_configured (p : OllamaProvider) : Bool := p.configured

/-- Error message of the unconfigured failure (ollama.rs line 180). -/
def not_configured_err : List Char := "Ollama provider 未配置".toList

/-- Error message of the empty-batch failure (ollama.rs line 198). -/
def no_usable_frames_err : List Char := "没有可用的图片帧用于分析".toList

/-- Marker for the unreachable sampling panic (`sample_frames` is always
called with the constant bound 30). -/
def sampling_panic : List Char := "divide by zero".toList

/-- The tail of `analyze_frames` once the encoded batch is non-empty: one
network round trip, then reply parsing (ollama.rs lines 202–203). -/
def issue_chat (res : Except (List Char) (List Char)) (now : Nat) :
    Except (List Char) SessionSummary × Nat :=
  match res with
  | .error e => (.error e, 1)
  | .ok raw => (parse_session_summary raw now, 1)

/-- `LLMProvider::analyze_frames` (ollama.rs lines 178–204).  `enc path`
stands for `image_to_base64` (`none` models an encode failure, which the
loop logs and skips), `chat` for the single round trip `call_ollama_chat`,
and `now` for the wall clock used by the parser.  The second component of
the result counts the network calls issued (0 or 1). -/
def analyze_frames (p : OllamaProvider) (frames : List String)
    (enc : String → Option String)
    (chat : List String → Except (List Char) (List Char)) (now : Nat) :
    Except (List Char) SessionSummary × Nat :=
  if p.configured then
    (sample_frames frames 30).elim (.error sampling_panic, 0) (fun sampled =>
      if (sampled.filterMap enc).isEmpty then (.error no_usable_frames_err, 0)
      else issue_chat (chat (sampled.filterMap enc)) now)
  else (.error not_configured_err, 0)

theorem issue_chat_count (res : Except (List Char) (List Char)) (now : Nat) :
    (issue_chat res now).2 = 1 := by
  cases res <;> rfl

/-- C8.  In the unconfigured state `analyze_frames` fails immediately with
the "not configured" error: the result is the same for every frame list,
encoder, and chat collaborator (so no sampling, encoding, or network
activity can influence it), and the network-call count is 0. -/
theorem analyze_frames_not_configured :
    ∀ (p : OllamaProvider) (frames : List String) (enc : String → Option String)
      (chat : List String → Except (List Char) (List Char)) (now : Nat),
      p.configured = false →
      analyze_frames p frames enc chat now = (.error not_configured_err, 0) := by
  intro p frames enc chat now hc
  unfold analyze_frames
  rw [hc]
  simp

/-- Witness for C8 on a concrete unconfigured provider. -/
theorem analyze_frames_not_configured_witness :
    analyze_frames ⟨"u".toList, "m".toList, false⟩ ["a"] (fun _ => none)
      (fun _ => .error []) 0 = (.error not_configured_err, 0) :=
  analyze_frames_not_configured ⟨"u".toList, "m".toList, false⟩ ["a"] (fun _ => none)
    (fun _ => .error []) 0 rfl

/-- C7.  On a configured provider, an empty input frame list — or a sampled
batch in which every frame fails to encode — makes `analyze_frames` fail
with the "no usable frames" error and issue zero network calls; and encode
failures with at least one surviving frame do not fail the call: the chat
request is issued (network-call count 1). -/
theorem analyze_frames_no_usable :
    ∀ (p : OllamaProvider) (frames : List String) (enc : String → Option String)
      (chat : List String → Except (List Char) (List Char)) (now : Nat)
      (sampled : List String),
      p.configured = true →
      sample_frames frames 30 = some sampled →
      ((frames = [] ∨ ∀ f ∈ sampled, enc f = none) →
        analyze_frames p frames enc chat now = (.error no_usable_frames_err, 0)) ∧
      ((∃ f ∈ sampled, (enc f).isSome) →
        (analyze_frames p frames enc chat now).2 = 1) := by
  intro p frames enc chat now sampled hc hsamp
  constructor
  · intro h
    have hnil : sampled.filterMap enc = [] := by
      rcases h with h | h
      · subst h
        have hs0 : sampled = [] := by
          rw [sample_frames] at hsamp
          simp at hsamp
          exact hsamp
        subst hs0
        rfl
      · rw [List.filterMap_eq_nil_iff]
        exact h
    unfold analyze_frames
    rw [hc, hsamp, Option.elim_some, hnil]
    simp
  · rintro ⟨f, hf, hsome⟩
    have hne : ¬ ((sampled.filterMap enc).isEmpty = true) := by
      rw [List.isEmpty_iff, List.filterMap_eq_nil_iff]
      intro hall
      rw [hall f hf] at hsome
      cases hsome
    unfold analyze_frames
    rw [hc, hsamp, Option.elim_some]
    simp only [if_true]
    rw [if_neg hne]
    exact issue_chat_count _ _

/-- Witness for C7: all-encodes-fail yields the no-usable-frames error with
no network call; one surviving encode issues the chat call. -/
theorem analyze_frames_no_usable_witness :
    analyze_frames ⟨"u".toList, "m".toList, true⟩ ["a"] (fun _ => none)
      (fun _ => .error []) 0 = (.error no_usable_frames_err, 0) ∧
    (analyze_frames ⟨"u".toList, "m".toList, true⟩ ["a"] (fun _ => some "b")
      (fun _ => .error []) 0).2 = 1 :=
  ⟨(analyze_frames_no_usable ⟨"u".toList, "m".toList, true⟩ ["a"] (fun _ => none)
      (fun _ => .error []) 0 ["a"] rfl rfl).1 (Or.inr (fun f _ => rfl)),
   (analyze_frames_no_usable ⟨"u".toList, "m".toList, true⟩ ["a"] (fun _ => some "b")
      (fun _ => .error []) 0 ["a"] rfl rfl).2 ⟨"a", by simp, rfl⟩⟩

/-- C9 (amended).  `configure` overwrites the endpoint and the model exactly
when the corresponding key (`base_url`, `model`) is present *with a string
value*: a recognised key bound to a non-string value is ignored like an
absent key (see the counterexample); unrecognised keys are ignored — the
result depends only on the two lookups, which both appear below.  Afterwards
the configured flag, exposed by `is_configured`, is true iff the endpoint is
non-empty after trimming; in particular an empty `base_url` string
unconfigures the provider and `"http://x:1"` configures it. -/
theorem configure_correct :
    ∀ (p : OllamaProvider) (config : Json),
      ((jget config "base_url".toList).bind as_str = none →
        (configure p config).base_url = p.base_url) ∧
      (∀ u, (jget config "base_url".toList).bind as_str = some u →
        (configure p config).base_url = u) ∧
      ((jget config "model".toList).bind as_str = none →
        (configure p config).model = p.model) ∧
      (∀ m, (jget config "model".toList).bind as_str = some m →
        (configure p config).model = m) ∧
      (is_configured (configure p config) =
        !(trim (configure p config).base_url).isEmpty) ∧
      (is_configured (configure p (Json.obj [("base_url".toList, Json.str [])])) = false) ∧
      (is_configured (configure p
        (Json.obj [("base_url".toList, Json.str "http://x:1".toList)])) = true) := by
  intro p config
  refine ⟨?_, ?_, ?_, ?_, ?_, rfl, rfl⟩
  · intro hb
    unfold configure
    rw [hb]
    cases hm : (jget config "model".toList).bind as_str <;> rfl
  · intro u hb
    unfold configure
    rw [hb]
    cases hm : (jget config "model".toList).bind as_str <;> rfl
  · intro hm
    unfold configure
    rw [hm]
    cases hb : (jget config "base_url".toList).bind as_str <;> rfl
  · intro m hm
    unfold configure
    rw [hm]
    cases hb : (jget config "base_url".toList).bind as_str <;> rfl
  · rfl

/-- Witness for C9: setting `base_url` to `"http://x:1"` overwrites the
endpoint and configures the provider. -/
theorem configure_correct_witness :
    (configure ⟨"old".toList, "m".toList, true⟩
      (Json.obj [("base_url".toList, Json.str "http://x:1".toList)])).base_url
        = "http://x:1".toList ∧
    is_configured (configure ⟨"old".toList, "m".toList, true⟩
      (Json.obj [("base_url".toList, Json.str "http://x:1".toList)])) = true :=
  ⟨(configure_correct ⟨"old".toList, "m".toList, true⟩
      (Json.obj [("base_url".toList, Json.str "http://x:1".toList)])).2.1
      "http://x:1".toList rfl,
   (configure_correct ⟨"old".toList, "m".toList, true⟩
      (Json.obj [("base_url".toList, Json.str "http://x:1".toList)])).2.2.2.2.2.2⟩

/-- C9 counterexample: the recognised key `base_url` present with a
non-string value (the number 5) does not overwrite the endpoint, so the
claim's "overwritten exactly when the corresponding keys are present" fails
as stated. -/
theorem configure_nonstring_counterexample :
    (configure ⟨"http://a".toList, "m".toList, true⟩
      (Json.obj [("base_url".toList, Json.num 5)])).base_url = "http://a".toList ∧
    containsKey [("base_url".toList, Json.num 5)] "base_url".toList = true :=
  ⟨rfl, rfl⟩

end ScreenAnalyzer
